import Mathlib

/-!
# Verification of `front-end-cache` (`src/index.ts`)

A shallow embedding of the `FrontEndCache` class from `src/index.ts` and proofs
about its behaviour.  JavaScript strings are modelled as `List Char`; JavaScript
values round-tripped through `JSON.stringify` / `JSON.parse` are modelled by the
inductive type `JsValue` below (numbers restricted to integers; strings without
control characters, so JSON escaping affects only the quote and backslash
characters).  The ambient browser context (`location.host`, `document.cookie`,
`window.localStorage`, `window.sessionStorage`, `new Date()`) is modelled as an
explicit `HostState` plus a `now : Int` parameter.  The cookie jar capability
stores name/value pairs: writing a record string parses `name=value;…` and
overwrites the entry of that name; cookie attributes (`path`, `domain`,
`expires`) are kept in the record text the component builds but are not
interpreted by the modelled jar.
-/

/-- A JavaScript value in the JSON-representable fragment manipulated by the
library: `null`, booleans, (integer) numbers, strings, arrays and objects. -/
inductive JsValue where
  | jnull
  | jbool (b : Bool)
  | jnum (n : Int)
  | jstr (s : List Char)
  | jarr (vs : List JsValue)
  | jobj (fs : List (List Char × JsValue))

/-- The digit character for `d < 10` (`'0'`–`'9'`). -/
def natDigitChar (d : Nat) : Char := Char.ofNat (48 + d)

/-- Decimal digits of `n`, most significant first, with explicit fuel so the
definition is structural (hence kernel-computable). -/
def natToCharsAux : Nat → Nat → List Char
  | 0, _ => []
  | fuel + 1, n => if n = 0 then [] else natToCharsAux fuel (n / 10) ++ [natDigitChar (n % 10)]

/-- Decimal rendering of a natural number, as `JSON.stringify` produces it. -/
def natToChars (n : Nat) : List Char :=
  if n = 0 then ['0'] else natToCharsAux (n + 1) n

/-- Decimal rendering of an integer, as `JSON.stringify` produces it. -/
def intToChars (n : Int) : List Char :=
  if n < 0 then '-' :: natToChars n.natAbs else natToChars n.toNat

/-- JSON string escaping of one character (model without control characters:
only `"` and `\` are escaped). -/
def escChar (c : Char) : List Char :=
  if c = '"' ∨ c = '\\' then ['\\', c] else [c]

/-- Body of a JSON string literal: every character escaped. -/
def escapeStr (s : List Char) : List Char := (s.map escChar).flatten

/-- A complete JSON string literal `"…"`. -/
def stringifyStr (s : List Char) : List Char := '"' :: (escapeStr s ++ ['"'])

mutual

/-- Model of `JSON.stringify` on `JsValue` (no whitespace, insertion-order
object keys, integers in canonical decimal). -/
def stringifyVal : JsValue → List Char
  | .jnull => ['n', 'u', 'l', 'l']
  | .jbool true => ['t', 'r', 'u', 'e']
  | .jbool false => ['f', 'a', 'l', 's', 'e']
  | .jnum n => intToChars n
  | .jstr s => stringifyStr s
  | .jarr vs => '[' :: (stringifyArr vs ++ [']'])
  | .jobj fs => '{' :: (stringifyObj fs ++ ['}'])

/-- Array elements joined by `,` (no brackets). -/
def stringifyArr : List JsValue → List Char
  | [] => []
  | [v] => stringifyVal v
  | v :: w :: t => stringifyVal v ++ ',' :: stringifyArr (w :: t)

/-- Object members `"k":v` joined by `,` (no braces). -/
def stringifyObj : List (List Char × JsValue) → List Char
  | [] => []
  | [(k, v)] => stringifyStr k ++ ':' :: stringifyVal v
  | (k, v) :: m :: t => stringifyStr k ++ ':' :: stringifyVal v ++ ',' :: stringifyObj (m :: t)

end

/-- ASCII-decimal digit test (the parser's own lexical predicate). -/
def isDigitCh (c : Char) : Bool := 48 ≤ c.toNat && c.toNat ≤ 57

/-- Numeric value of a digit character. -/
def digitToNat (c : Char) : Nat := c.toNat - 48

/-- Consume a maximal run of digits, accumulating their value. -/
def parseDigitsAux : Nat → List Char → Nat × List Char
  | acc, [] => (acc, [])
  | acc, c :: t =>
    if isDigitCh c then parseDigitsAux (10 * acc + digitToNat c) t else (acc, c :: t)

/-- Parse a nonempty digit run as a natural number. -/
def parseNat : List Char → Option (Nat × List Char)
  | [] => none
  | c :: t => if isDigitCh c then some (parseDigitsAux 0 (c :: t)) else none

/-- Parse the body of a JSON string literal (after the opening quote), undoing
`escChar`; rejects invalid escapes. -/
def parseStringBody : List Char → Option (List Char × List Char)
  | [] => none
  | c :: t =>
    if c = '"' then some ([], t)
    else if c = '\\' then
      match t with
      | [] => none
      | e :: t2 =>
        if e = '"' ∨ e = '\\' then (parseStringBody t2).map (fun p => (e :: p.1, p.2))
        else none
    else (parseStringBody t).map (fun p => (c :: p.1, p.2))

mutual

/-- Fuel-indexed JSON value parser (model of `JSON.parse` on the fragment the
printer emits; no whitespace skipping, no floats, no `\u` escapes). -/
def parseVal : Nat → List Char → Option (JsValue × List Char)
  | 0, _ => none
  | _ + 1, [] => none
  | fuel + 1, c :: t =>
    if c = 'n' then
      match t with
      | 'u' :: 'l' :: 'l' :: r => some (.jnull, r)
      | _ => none
    else if c = 't' then
      match t with
      | 'r' :: 'u' :: 'e' :: r => some (.jbool true, r)
      | _ => none
    else if c = 'f' then
      match t with
      | 'a' :: 'l' :: 's' :: 'e' :: r => some (.jbool false, r)
      | _ => none
    else if c = '"' then (parseStringBody t).map (fun p => (.jstr p.1, p.2))
    else if c = '-' then (parseNat t).map (fun p => (.jnum (-(p.1 : Int)), p.2))
    else if isDigitCh c then (parseNat (c :: t)).map (fun p => (.jnum (p.1 : Int), p.2))
    else if c = '[' then
      match t with
      | ']' :: r => some (.jarr [], r)
      | _ => (parseArrItems fuel t).map (fun p => (.jarr p.1, p.2))
    else if c = '{' then
      match t with
      | '}' :: r => some (.jobj [], r)
      | _ => (parseObjItems fuel t).map (fun p => (.jobj p.1, p.2))
    else none

/-- Parse one-or-more comma-separated array elements up to `]`. -/
def parseArrItems : Nat → List Char → Option (List JsValue × List Char)
  | 0, _ => none
  | fuel + 1, s =>
    (parseVal fuel s).bind (fun p =>
      match p.2 with
      | ',' :: r2 => (parseArrItems fuel r2).map (fun q => (p.1 :: q.1, q.2))
      | ']' :: r2 => some ([p.1], r2)
      | _ => none)

/-- Parse one-or-more comma-separated object members up to `}`. -/
def parseObjItems : Nat → List Char → Option (List (List Char × JsValue) × List Char)
  | 0, _ => none
  | fuel + 1, s =>
    match s with
    | '"' :: t =>
      (parseStringBody t).bind (fun kp =>
        match kp.2 with
        | ':' :: r2 =>
          (parseVal fuel r2).bind (fun vp =>
            match vp.2 with
            | ',' :: r4 => (parseObjItems fuel r4).map (fun q => ((kp.1, vp.1) :: q.1, q.2))
            | '}' :: r4 => some ([(kp.1, vp.1)], r4)
            | _ => none)
        | _ => none)
    | _ => none

end

/-- Model of `JSON.parse`: parse a complete value consuming the whole input,
`none` standing for a thrown `SyntaxError`. -/
def jsonParse (s : List Char) : Option JsValue :=
  match parseVal (s.length + 1) s with
  | some (v, []) => some v
  | _ => none

/-- `true` when the list does not start with a decimal digit (so a greedy
digit run just before it stops exactly there). -/
def noLeadDigit : List Char → Bool
  | [] => true
  | c :: _ => !isDigitCh c

theorem digitToNat_natDigitChar {d : Nat} (h : d < 10) :
    digitToNat (natDigitChar d) = d := by
  interval_cases d <;> decide

theorem isDigitCh_natDigitChar {d : Nat} (h : d < 10) :
    isDigitCh (natDigitChar d) = true := by
  interval_cases d <;> decide

theorem natToCharsAux_eq_digits (fuel : Nat) :
    ∀ n : Nat, n < 10 ^ fuel →
      natToCharsAux fuel n = ((Nat.digits 10 n).map natDigitChar).reverse := by
  induction fuel with
  | zero => intro n hn; interval_cases n; simp [natToCharsAux]
  | succ f ih =>
    intro n hn
    by_cases h0 : n = 0
    · subst h0; simp [natToCharsAux]
    · have hdiv : n / 10 < 10 ^ f := by
        rw [Nat.div_lt_iff_lt_mul (by norm_num)]
        calc n < 10 ^ (f + 1) := hn
        _ = 10 ^ f * 10 := by ring
      rw [natToCharsAux, if_neg h0, ih _ hdiv,
        (Nat.digits_def' (by norm_num) (Nat.pos_of_ne_zero h0) :
          Nat.digits 10 n = n % 10 :: Nat.digits 10 (n / 10))]
      simp

theorem natToChars_eq_digits {n : Nat} (h : n ≠ 0) :
    natToChars n = ((Nat.digits 10 n).map natDigitChar).reverse := by
  rw [natToChars, if_neg h]
  exact natToCharsAux_eq_digits _ n
    ((Nat.lt_pow_self (by norm_num) n).trans_le
      (Nat.pow_le_pow_right (by norm_num) (Nat.le_succ n)))

theorem natToChars_all_digits (n : Nat) :
    ∀ c ∈ natToChars n, isDigitCh c = true := by
  by_cases h : n = 0
  · subst h; intro c hc; simp [natToChars] at hc; subst hc; decide
  · rw [natToChars_eq_digits h]
    intro c hc
    simp only [List.mem_reverse, List.mem_map] at hc
    obtain ⟨d, hd, rfl⟩ := hc
    exact isDigitCh_natDigitChar (Nat.digits_lt_base (by norm_num) hd)

theorem natToChars_ne_nil (n : Nat) : natToChars n ≠ [] := by
  by_cases h : n = 0
  · subst h; simp [natToChars]
  · rw [natToChars_eq_digits h]
    simp [Nat.digits_ne_nil_iff_ne_zero, h]

theorem parseDigitsAux_spec (ds : List Char) :
    ∀ (rest : List Char) (acc : Nat), (∀ c ∈ ds, isDigitCh c = true) →
      noLeadDigit rest = true →
      parseDigitsAux acc (ds ++ rest) = (ds.foldl (fun a c => 10 * a + digitToNat c) acc, rest) := by
  induction ds with
  | nil =>
    intro rest acc _ hr
    cases rest with
    | nil => rfl
    | cons c t =>
      simp only [noLeadDigit, Bool.not_eq_true'] at hr
      simp [parseDigitsAux, hr]
  | cons c t ih =>
    intro rest acc hds hr
    have hc := hds c (by simp)
    simp only [List.cons_append, parseDigitsAux, hc, if_true, List.foldl_cons]
    exact ih rest _ (fun x hx => hds x (by simp [hx])) hr

theorem foldl_base10 (l : List Nat) :
    ∀ acc : Nat, l.foldl (fun a d => 10 * a + d) acc
      = acc * 10 ^ l.length + Nat.ofDigits 10 l.reverse := by
  induction l with
  | nil => intro acc; simp [Nat.ofDigits]
  | cons d t ih =>
    intro acc
    rw [List.foldl_cons, ih, List.reverse_cons, Nat.ofDigits_append]
    simp only [List.length_cons, List.length_reverse, Nat.ofDigits_singleton]
    ring

theorem foldl_natToChars (n : Nat) :
    (natToChars n).foldl (fun a c => 10 * a + digitToNat c) 0 = n := by
  by_cases h : n = 0
  · subst h; decide
  · rw [natToChars_eq_digits h]
    have hmap : ((Nat.digits 10 n).map natDigitChar).reverse
        = ((Nat.digits 10 n).reverse).map natDigitChar := by
      simp [List.map_reverse]
    rw [hmap, List.foldl_map]
    have hext : ((Nat.digits 10 n).reverse).foldl
          (fun (a : Nat) (c : Nat) => 10 * a + digitToNat (natDigitChar c)) 0
        = ((Nat.digits 10 n).reverse).foldl (fun a d => 10 * a + d) 0 := by
      apply List.foldl_ext
      intro a d hd
      rw [digitToNat_natDigitChar
        (Nat.digits_lt_base (by norm_num) (List.mem_reverse.mp hd))]
    rw [hext, foldl_base10]
    simp [Nat.ofDigits_digits]

theorem parseNat_natToChars (n : Nat) (rest : List Char) (hr : noLeadDigit rest = true) :
    parseNat (natToChars n ++ rest) = some (n, rest) := by
  obtain ⟨c, t, hct⟩ : ∃ c t, natToChars n = c :: t := by
    cases h : natToChars n with
    | nil => exact absurd h (natToChars_ne_nil n)
    | cons c t => exact ⟨c, t, rfl⟩
  have hc : isDigitCh c = true := natToChars_all_digits n c (by rw [hct]; simp)
  rw [hct, List.cons_append, parseNat, if_pos hc, ← List.cons_append, ← hct,
    parseDigitsAux_spec _ _ _ (natToChars_all_digits n) hr, foldl_natToChars]

theorem parseStringBody_cons (c : Char) (t : List Char) :
    parseStringBody (c :: t)
      = if c = '"' then some ([], t)
        else if c = '\\' then
          match t with
          | [] => none
          | e :: t2 =>
            if e = '"' ∨ e = '\\' then (parseStringBody t2).map (fun p => (e :: p.1, p.2))
            else none
        else (parseStringBody t).map (fun p => (c :: p.1, p.2)) := by
  rw [parseStringBody.eq_def]

theorem parseStringBody_escape (s : List Char) :
    ∀ rest : List Char, parseStringBody (escapeStr s ++ '"' :: rest) = some (s, rest) := by
  induction s with
  | nil =>
    intro rest
    have h : escapeStr [] = [] := rfl
    rw [h, List.nil_append, parseStringBody_cons]
    simp
  | cons c t ih =>
    intro rest
    have hsplit : escapeStr (c :: t) = escChar c ++ escapeStr t := by
      simp [escapeStr]
    by_cases hc : c = '"' ∨ c = '\\'
    · have h1 : escChar c = ['\\', c] := by rw [escChar, if_pos hc]
      rw [hsplit, h1]
      simp only [List.cons_append, List.append_assoc]
      rw [parseStringBody_cons]
      simp [hc, ih rest]
    · have h1 : escChar c = [c] := by rw [escChar, if_neg hc]
      push_neg at hc
      rw [hsplit, h1]
      simp only [List.cons_append, List.nil_append]
      rw [parseStringBody_cons]
      simp [hc.1, hc.2, ih rest]

theorem isDigitCh_not_special {c : Char} (h : isDigitCh c = true) :
    c ≠ 'n' ∧ c ≠ 't' ∧ c ≠ 'f' ∧ c ≠ '"' ∧ c ≠ '-' ∧ c ≠ ']' ∧ c ≠ '[' ∧ c ≠ '{' := by
  refine ⟨?_, ?_, ?_, ?_, ?_, ?_, ?_, ?_⟩ <;> rintro rfl <;> exact absurd h (by decide)

/-- The first character a value renders to: it exists and is never one of the
closing/separator characters the parser dispatches on. -/
theorem stringify_head (v : JsValue) :
    ∃ c t, stringifyVal v = c :: t ∧ c ≠ ']' ∧ c ≠ '}' := by
  cases v with
  | jnull => exact ⟨'n', _, rfl, by decide, by decide⟩
  | jbool b => cases b with
    | true => exact ⟨'t', _, rfl, by decide, by decide⟩
    | false => exact ⟨'f', _, rfl, by decide, by decide⟩
  | jnum n =>
    by_cases hn : n < 0
    · exact ⟨'-', _, by rw [stringifyVal, intToChars, if_pos hn], by decide, by decide⟩
    · obtain ⟨c, t, hct⟩ : ∃ c t, natToChars n.toNat = c :: t := by
        cases h : natToChars n.toNat with
        | nil => exact absurd h (natToChars_ne_nil _)
        | cons c t => exact ⟨c, t, rfl⟩
      have hc : isDigitCh c = true := natToChars_all_digits _ c (by rw [hct]; simp)
      obtain ⟨_, _, _, _, _, h6, _, _⟩ := isDigitCh_not_special hc
      refine ⟨c, t, ?_, h6, ?_⟩
      · rw [stringifyVal, intToChars, if_neg hn, hct]
      · rintro rfl; exact absurd hc (by decide)
  | jstr s => exact ⟨'"', _, rfl, by decide, by decide⟩
  | jarr vs => exact ⟨'[', _, rfl, by decide, by decide⟩
  | jobj fs => exact ⟨'{', _, rfl, by decide, by decide⟩

theorem stringifyArr_cons_head (v : JsValue) (vs : List JsValue) :
    ∃ c t, stringifyArr (v :: vs) = c :: t ∧ c ≠ ']' := by
  obtain ⟨c, t, hct, h1, _⟩ := stringify_head v
  cases vs with
  | nil => exact ⟨c, t, by rw [stringifyArr, hct], h1⟩
  | cons w ws =>
    exact ⟨c, t ++ ',' :: stringifyArr (w :: ws), by rw [stringifyArr, hct]; rfl, h1⟩

theorem stringifyObj_cons_head (k : List Char) (v : JsValue)
    (ms : List (List Char × JsValue)) :
    ∃ t, stringifyObj ((k, v) :: ms) = '"' :: t := by
  cases ms with
  | nil =>
    refine ⟨escapeStr k ++ ['"'] ++ ':' :: stringifyVal v, ?_⟩
    show stringifyStr k ++ ':' :: stringifyVal v = _
    rw [stringifyStr]
    simp
  | cons m t =>
    refine ⟨escapeStr k ++ ['"'] ++ (':' :: stringifyVal v ++ ',' :: stringifyObj (m :: t)), ?_⟩
    show stringifyStr k ++ ':' :: stringifyVal v ++ ',' :: stringifyObj (m :: t) = _
    rw [stringifyStr]
    simp

/-! Branch-reduction lemmas for `parseVal` (one per constructor head). -/

theorem parseVal_null (f : Nat) (r : List Char) :
    parseVal (f + 1) ('n' :: 'u' :: 'l' :: 'l' :: r) = some (.jnull, r) := by
  simp [parseVal]

theorem parseVal_true (f : Nat) (r : List Char) :
    parseVal (f + 1) ('t' :: 'r' :: 'u' :: 'e' :: r) = some (.jbool true, r) := by
  simp [parseVal]

theorem parseVal_false (f : Nat) (r : List Char) :
    parseVal (f + 1) ('f' :: 'a' :: 'l' :: 's' :: 'e' :: r) = some (.jbool false, r) := by
  simp [parseVal]

theorem parseVal_quote (f : Nat) (t : List Char) :
    parseVal (f + 1) ('"' :: t)
      = (parseStringBody t).map (fun p => (.jstr p.1, p.2)) := by
  simp [parseVal]

theorem parseVal_dash (f : Nat) (t : List Char) :
    parseVal (f + 1) ('-' :: t)
      = (parseNat t).map (fun p => (.jnum (-(p.1 : Int)), p.2)) := by
  simp [parseVal]

theorem parseVal_digit (f : Nat) {c : Char} (t : List Char) (hc : isDigitCh c = true) :
    parseVal (f + 1) (c :: t)
      = (parseNat (c :: t)).map (fun p => (.jnum (p.1 : Int), p.2)) := by
  obtain ⟨h1, h2, h3, h4, h5, _, _, _⟩ := isDigitCh_not_special hc
  simp only [parseVal]
  rw [if_neg h1, if_neg h2, if_neg h3, if_neg h4, if_neg h5, if_pos hc]

theorem parseVal_arrNil (f : Nat) (r : List Char) :
    parseVal (f + 1) ('[' :: ']' :: r) = some (.jarr [], r) := by
  simp [parseVal, isDigitCh]

theorem parseVal_arrStep (f : Nat) {c : Char} (t : List Char) (hc : c ≠ ']') :
    parseVal (f + 1) ('[' :: c :: t)
      = (parseArrItems f (c :: t)).map (fun p => (.jarr p.1, p.2)) := by
  simp only [parseVal]
  rw [if_neg (by decide : ¬ (('[' : Char) = 'n')), if_neg (by decide : ¬ (('[' : Char) = 't')),
    if_neg (by decide : ¬ (('[' : Char) = 'f')), if_neg (by decide : ¬ (('[' : Char) = '"')),
    if_neg (by decide : ¬ (('[' : Char) = '-')), if_neg (by decide : ¬ (isDigitCh '[' = true))]
  rw [if_pos (by trivial)]
  split
  · rename_i heq
    injection heq with heq1 _
    exact absurd heq1 hc
  · rfl

theorem parseVal_objNil (f : Nat) (r : List Char) :
    parseVal (f + 1) ('{' :: '}' :: r) = some (.jobj [], r) := by
  simp [parseVal, isDigitCh]

theorem parseVal_objStep (f : Nat) {c : Char} (t : List Char) (hc : c ≠ '}') :
    parseVal (f + 1) ('{' :: c :: t)
      = (parseObjItems f (c :: t)).map (fun p => (.jobj p.1, p.2)) := by
  simp only [parseVal]
  rw [if_neg (by decide : ¬ (('{' : Char) = 'n')), if_neg (by decide : ¬ (('{' : Char) = 't')),
    if_neg (by decide : ¬ (('{' : Char) = 'f')), if_neg (by decide : ¬ (('{' : Char) = '"')),
    if_neg (by decide : ¬ (('{' : Char) = '-')), if_neg (by decide : ¬ (isDigitCh '{' = true)),
    if_neg (by decide : ¬ (('{' : Char) = '['))]
  rw [if_pos (by trivial)]
  split
  · rename_i heq
    injection heq with heq1 _
    exact absurd heq1 hc
  · rfl

theorem parseVal_num (n : Int) (f : Nat) (rest : List Char) (hr : noLeadDigit rest = true) :
    parseVal (f + 1) (intToChars n ++ rest) = some (.jnum n, rest) := by
  by_cases hn : n < 0
  · have h1 : intToChars n = '-' :: natToChars n.natAbs := by rw [intToChars, if_pos hn]
    have h2 : -((n.natAbs : Nat) : Int) = n := by omega
    rw [h1, List.cons_append, parseVal_dash, parseNat_natToChars _ _ hr]
    simp only [Option.map_some']
    rw [h2]
  · have h1 : intToChars n = natToChars n.toNat := by rw [intToChars, if_neg hn]
    obtain ⟨c, t, hct⟩ : ∃ c t, natToChars n.toNat = c :: t := by
      cases h : natToChars n.toNat with
      | nil => exact absurd h (natToChars_ne_nil _)
      | cons c t => exact ⟨c, t, rfl⟩
    have hc : isDigitCh c = true := natToChars_all_digits _ c (by rw [hct]; simp)
    have h2 : ((n.toNat : Nat) : Int) = n := Int.toNat_of_nonneg (by omega)
    rw [h1, hct, List.cons_append, parseVal_digit _ _ hc, ← List.cons_append, ← hct,
      parseNat_natToChars _ _ hr]
    simp only [Option.map_some']
    rw [h2]

theorem parseArrItems_step (f : Nat) (s : List Char) :
    parseArrItems (f + 1) s
      = (parseVal f s).bind (fun p =>
          match p.2 with
          | ',' :: r2 => (parseArrItems f r2).map (fun q => (p.1 :: q.1, q.2))
          | ']' :: r2 => some ([p.1], r2)
          | _ => none) := rfl

theorem parseObjItems_step (f : Nat) (t : List Char) :
    parseObjItems (f + 1) ('"' :: t)
      = (parseStringBody t).bind (fun kp =>
          match kp.2 with
          | ':' :: r2 =>
            (parseVal f r2).bind (fun vp =>
              match vp.2 with
              | ',' :: r4 => (parseObjItems f r4).map (fun q => ((kp.1, vp.1) :: q.1, q.2))
              | '}' :: r4 => some ([(kp.1, vp.1)], r4)
              | _ => none)
          | _ => none) := by
  simp [parseObjItems]

mutual

/-- Printer/parser inversion for a single value: parsing the rendition of `v`
followed by any non-digit-led remainder yields exactly `v` and the remainder. -/
theorem rt_val : ∀ (v : JsValue) (fuel : Nat) (rest : List Char),
    (stringifyVal v).length < fuel → noLeadDigit rest = true →
    parseVal fuel (stringifyVal v ++ rest) = some (v, rest)
  | .jnull, fuel, rest, hf, _ => by
    cases fuel with
    | zero => exact absurd hf (Nat.not_lt_zero _)
    | succ f => exact parseVal_null f rest
  | .jbool true, fuel, rest, hf, _ => by
    cases fuel with
    | zero => exact absurd hf (Nat.not_lt_zero _)
    | succ f => exact parseVal_true f rest
  | .jbool false, fuel, rest, hf, _ => by
    cases fuel with
    | zero => exact absurd hf (Nat.not_lt_zero _)
    | succ f => exact parseVal_false f rest
  | .jnum n, fuel, rest, hf, hr => by
    cases fuel with
    | zero => exact absurd hf (Nat.not_lt_zero _)
    | succ f => exact parseVal_num n f rest hr
  | .jstr s, fuel, rest, hf, _ => by
    cases fuel with
    | zero => exact absurd hf (Nat.not_lt_zero _)
    | succ f =>
      have harg : stringifyVal (.jstr s) ++ rest = '"' :: (escapeStr s ++ '"' :: rest) := by
        simp [stringifyVal, stringifyStr]
      rw [harg, parseVal_quote, parseStringBody_escape]
      rfl
  | .jarr [], fuel, rest, hf, _ => by
    cases fuel with
    | zero => exact absurd hf (Nat.not_lt_zero _)
    | succ f =>
      have harg : stringifyVal (.jarr []) ++ rest = '[' :: ']' :: rest := rfl
      rw [harg, parseVal_arrNil]
  | .jarr (v :: vs), fuel, rest, hf, _ => by
    cases fuel with
    | zero => exact absurd hf (Nat.not_lt_zero _)
    | succ f =>
      obtain ⟨c, t, hct, hcne⟩ := stringifyArr_cons_head v vs
      have harg : stringifyVal (.jarr (v :: vs)) ++ rest
          = '[' :: (c :: (t ++ ']' :: rest)) := by
        show '[' :: (stringifyArr (v :: vs) ++ [']']) ++ rest = _
        rw [hct]
        simp
      have hsv : (stringifyVal (.jarr (v :: vs))).length
          = (stringifyArr (v :: vs)).length + 2 := by
        show ('[' :: (stringifyArr (v :: vs) ++ [']'])).length = _
        simp
      have hkey := rt_arr v vs f rest (by omega)
      have hct2 : c :: (t ++ ']' :: rest) = stringifyArr (v :: vs) ++ ']' :: rest := by
        rw [hct]
        rfl
      rw [harg, parseVal_arrStep f _ hcne, hct2, hkey]
      rfl
  | .jobj [], fuel, rest, hf, _ => by
    cases fuel with
    | zero => exact absurd hf (Nat.not_lt_zero _)
    | succ f =>
      have harg : stringifyVal (.jobj []) ++ rest = '{' :: '}' :: rest := rfl
      rw [harg, parseVal_objNil]
  | .jobj ((k, v) :: ms), fuel, rest, hf, _ => by
    cases fuel with
    | zero => exact absurd hf (Nat.not_lt_zero _)
    | succ f =>
      obtain ⟨t0, ht0⟩ := stringifyObj_cons_head k v ms
      have harg : stringifyVal (.jobj ((k, v) :: ms)) ++ rest
          = '{' :: ('"' :: (t0 ++ '}' :: rest)) := by
        show '{' :: (stringifyObj ((k, v) :: ms) ++ ['}']) ++ rest = _
        rw [ht0]
        simp
      have hsv : (stringifyVal (.jobj ((k, v) :: ms))).length
          = (stringifyObj ((k, v) :: ms)).length + 2 := by
        show ('{' :: (stringifyObj ((k, v) :: ms) ++ ['}'])).length = _
        simp
      have hkey := rt_obj k v ms f rest (by omega)
      have hct2 : '"' :: (t0 ++ '}' :: rest) = stringifyObj ((k, v) :: ms) ++ '}' :: rest := by
        rw [ht0]
        rfl
      rw [harg, parseVal_objStep f _ (by decide : ('"' : Char) ≠ '}'), hct2, hkey]
      rfl

termination_by v _ _ _ _ => sizeOf v

/-- Inversion for nonempty array element lists terminated by `]`. -/
theorem rt_arr : ∀ (v : JsValue) (vs : List JsValue) (fuel : Nat) (rest : List Char),
    (stringifyArr (v :: vs)).length + 1 < fuel →
    parseArrItems fuel (stringifyArr (v :: vs) ++ ']' :: rest) = some (v :: vs, rest)
  | v, [], fuel, rest, hf => by
    cases fuel with
    | zero => exact absurd hf (Nat.not_lt_zero _)
    | succ f =>
      have h1 : stringifyArr [v] = stringifyVal v := rfl
      have hlen : (stringifyVal v).length < f := by rw [h1] at hf; omega
      rw [h1, parseArrItems_step, rt_val v f (']' :: rest) hlen (by rfl)]
      rfl
  | v, w :: ws, fuel, rest, hf => by
    cases fuel with
    | zero => exact absurd hf (Nat.not_lt_zero _)
    | succ f =>
      have h1 : stringifyArr (v :: w :: ws)
          = stringifyVal v ++ ',' :: stringifyArr (w :: ws) := rfl
      have hlens : (stringifyVal v).length + 1 + (stringifyArr (w :: ws)).length + 1 < f + 1 := by
        rw [h1] at hf
        simp only [List.length_append, List.length_cons] at hf
        omega
      have harg : stringifyArr (v :: w :: ws) ++ ']' :: rest
          = stringifyVal v ++ (',' :: (stringifyArr (w :: ws) ++ ']' :: rest)) := by
        rw [h1]
        simp
      rw [harg, parseArrItems_step,
        rt_val v f (',' :: (stringifyArr (w :: ws) ++ ']' :: rest)) (by omega) (by rfl)]
      show (parseArrItems f (stringifyArr (w :: ws) ++ ']' :: rest)).map
          (fun q => (v :: q.1, q.2)) = _
      rw [rt_arr w ws f rest (by omega)]
      rfl

termination_by v vs _ _ _ => sizeOf v + sizeOf vs

/-- Inversion for nonempty object member lists terminated by `}`. -/
theorem rt_obj : ∀ (k : List Char) (v : JsValue) (ms : List (List Char × JsValue))
    (fuel : Nat) (rest : List Char),
    (stringifyObj ((k, v) :: ms)).length + 1 < fuel →
    parseObjItems fuel (stringifyObj ((k, v) :: ms) ++ '}' :: rest) = some ((k, v) :: ms, rest)
  | k, v, [], fuel, rest, hf => by
    cases fuel with
    | zero => exact absurd hf (Nat.not_lt_zero _)
    | succ f =>
      have h1 : stringifyObj [(k, v)] = stringifyStr k ++ ':' :: stringifyVal v := rfl
      have hlen : (stringifyVal v).length < f := by
        rw [h1] at hf
        simp only [List.length_append, List.length_cons] at hf
        omega
      have harg : stringifyObj [(k, v)] ++ '}' :: rest
          = '"' :: (escapeStr k ++ '"' :: (':' :: (stringifyVal v ++ '}' :: rest))) := by
        rw [h1, stringifyStr]
        simp
      rw [harg, parseObjItems_step, parseStringBody_escape]
      show (parseVal f (stringifyVal v ++ '}' :: rest)).bind _ = _
      rw [rt_val v f ('}' :: rest) hlen (by rfl)]
      rfl
  | k, v, (k2, v2) :: ms, fuel, rest, hf => by
    cases fuel with
    | zero => exact absurd hf (Nat.not_lt_zero _)
    | succ f =>
      have h1 : stringifyObj ((k, v) :: (k2, v2) :: ms)
          = stringifyStr k ++ ':' :: stringifyVal v ++ ',' :: stringifyObj ((k2, v2) :: ms) := rfl
      have hlens : (stringifyVal v).length + (stringifyObj ((k2, v2) :: ms)).length + 1 < f := by
        rw [h1, stringifyStr] at hf
        simp only [List.length_append, List.length_cons] at hf
        omega
      have harg : stringifyObj ((k, v) :: (k2, v2) :: ms) ++ '}' :: rest
          = '"' :: (escapeStr k ++ '"' :: (':' :: (stringifyVal v
              ++ ',' :: (stringifyObj ((k2, v2) :: ms) ++ '}' :: rest)))) := by
        rw [h1, stringifyStr]
        simp
      rw [harg, parseObjItems_step, parseStringBody_escape]
      show (parseVal f (stringifyVal v
          ++ ',' :: (stringifyObj ((k2, v2) :: ms) ++ '}' :: rest))).bind _ = _
      rw [rt_val v f (',' :: (stringifyObj ((k2, v2) :: ms) ++ '}' :: rest))
        (by omega) (by rfl)]
      show (parseObjItems f (stringifyObj ((k2, v2) :: ms) ++ '}' :: rest)).map
          (fun q => ((k, v) :: q.1, q.2)) = _
      rw [rt_obj k2 v2 ms f rest (by omega)]
      rfl
termination_by k v ms _ _ _ => sizeOf v + sizeOf ms

end

/-- `JSON.parse ∘ JSON.stringify = id` on the modelled value fragment. -/
theorem jsonParse_stringify (v : JsValue) : jsonParse (stringifyVal v) = some v := by
  have h := rt_val v ((stringifyVal v).length + 1) [] (Nat.lt_succ_self _) rfl
  rw [List.append_nil] at h
  rw [jsonParse, h]

example : jsonParse (stringifyVal (.jarr [.jnum 1, .jstr ['a'], .jnull]))
    = some (.jarr [.jnum 1, .jstr ['a'], .jnull]) := rfl

/-! ## `encodeURIComponent` / `decodeURIComponent`

Model of the JavaScript globals, faithful on code points below 128 (for larger
code points JavaScript percent-encodes the UTF-8 bytes, which the ASCII-level
theorems below never exercise). -/

/-- The characters `encodeURIComponent` leaves unescaped:
`A–Z a–z 0–9 - _ . ! ~ * ' ( )`. -/
def isUnreservedURI (c : Char) : Bool :=
  c.isAlpha || isDigitCh c || c = '-' || c = '_' || c = '.' || c = '!' || c = '~' ||
    c = '*' || c = Char.ofNat 39 || c = '(' || c = ')'

/-- Upper-case hexadecimal digit for `n < 16`. -/
def hexDigitChar (n : Nat) : Char :=
  if n < 10 then Char.ofNat (48 + n) else Char.ofNat (55 + n)

/-- Percent-encoding of a single character. -/
def encCharURI (c : Char) : List Char :=
  if isUnreservedURI c then [c]
  else ['%', hexDigitChar (c.toNat / 16 % 16), hexDigitChar (c.toNat % 16)]

/-- Model of `encodeURIComponent`. -/
def encodeURIComponent (s : List Char) : List Char := (s.map encCharURI).flatten

/-- Value of one hexadecimal digit character (either case), `none` otherwise. -/
def hexVal (c : Char) : Option Nat :=
  if 48 ≤ c.toNat ∧ c.toNat ≤ 57 then some (c.toNat - 48)
  else if 65 ≤ c.toNat ∧ c.toNat ≤ 70 then some (c.toNat - 55)
  else if 97 ≤ c.toNat ∧ c.toNat ≤ 102 then some (c.toNat - 87)
  else none

/-- Model of `decodeURIComponent`; `none` stands for a thrown `URIError`
(malformed or non-ASCII percent sequence). -/
def decodeURIComponent : List Char → Option (List Char)
  | [] => some []
  | c :: t =>
    if c = '%' then
      match t with
      | h :: l :: t2 =>
        match hexVal h, hexVal l with
        | some hv, some lv =>
          if 16 * hv + lv < 128 then
            (decodeURIComponent t2).map (fun r => Char.ofNat (16 * hv + lv) :: r)
          else none
        | _, _ => none
      | _ => none
    else (decodeURIComponent t).map (fun r => c :: r)

theorem hexVal_hexDigitChar {n : Nat} (h : n < 16) : hexVal (hexDigitChar n) = some n := by
  interval_cases n <;> decide

theorem isUnreservedURI_not_pct {c : Char} (h : isUnreservedURI c = true) : c ≠ '%' := by
  rintro rfl; exact absurd h (by decide)

theorem decodeURIComponent_cons (c : Char) (t : List Char) :
    decodeURIComponent (c :: t)
      = if c = '%' then
          match t with
          | h :: l :: t2 =>
            match hexVal h, hexVal l with
            | some hv, some lv =>
              if 16 * hv + lv < 128 then
                (decodeURIComponent t2).map (fun r => Char.ofNat (16 * hv + lv) :: r)
              else none
            | _, _ => none
          | _ => none
        else (decodeURIComponent t).map (fun r => c :: r) := by
  rw [decodeURIComponent.eq_def]

/-- Decoding inverts encoding on ASCII strings. -/
theorem decodeURIComponent_encode (s : List Char) (hs : ∀ c ∈ s, c.toNat < 128) :
    decodeURIComponent (encodeURIComponent s) = some s := by
  induction s with
  | nil => rfl
  | cons c t ih =>
    have hct : encodeURIComponent (c :: t) = encCharURI c ++ encodeURIComponent t := by
      simp [encodeURIComponent]
    have hc : c.toNat < 128 := hs c (by simp)
    have iht := ih (fun x hx => hs x (by simp [hx]))
    by_cases hu : isUnreservedURI c = true
    · rw [hct, encCharURI, if_pos hu, List.singleton_append, decodeURIComponent_cons,
        if_neg (isUnreservedURI_not_pct hu), iht]
      rfl
    · have hhi : c.toNat / 16 % 16 < 16 := Nat.mod_lt _ (by norm_num)
      have hlo : c.toNat % 16 < 16 := Nat.mod_lt _ (by norm_num)
      have hsum : 16 * (c.toNat / 16 % 16) + c.toNat % 16 = c.toNat := by
        have h8 : c.toNat / 16 < 16 := by omega
        rw [Nat.mod_eq_of_lt h8]
        omega
      rw [hct, encCharURI, if_neg hu, List.cons_append, decodeURIComponent_cons,
        if_pos rfl]
      simp only [List.cons_append, List.nil_append]
      rw [hexVal_hexDigitChar hhi, hexVal_hexDigitChar hlo]
      simp only [hsum]
      rw [if_pos hc, iht]
      simp [Char.ofNat_toNat]

/-- No output character of `encodeURIComponent` is a cookie-record delimiter
(`;`, `=`, or a space). -/
theorem encodeURIComponent_safe (s : List Char) :
    ∀ c ∈ encodeURIComponent s, c ≠ ';' ∧ c ≠ '=' ∧ c ≠ ' ' := by
  induction s with
  | nil => intro c hc; simp [encodeURIComponent] at hc
  | cons a t ih =>
    intro c hc
    have hct : encodeURIComponent (a :: t) = encCharURI a ++ encodeURIComponent t := by
      simp [encodeURIComponent]
    rw [hct, List.mem_append] at hc
    rcases hc with hc | hc
    · by_cases hu : isUnreservedURI a = true
      · rw [encCharURI, if_pos hu] at hc
        simp at hc
        subst hc
        refine ⟨?_, ?_, ?_⟩ <;> rintro rfl <;> exact absurd hu (by decide)
      · rw [encCharURI, if_neg hu] at hc
        have hhi : a.toNat / 16 % 16 < 16 := Nat.mod_lt _ (by norm_num)
        have hlo : a.toNat % 16 < 16 := Nat.mod_lt _ (by norm_num)
        simp at hc
        rcases hc with rfl | rfl | rfl
        · exact ⟨by decide, by decide, by decide⟩
        · revert hhi
          generalize a.toNat / 16 % 16 = n
          intro hn
          interval_cases n <;> exact ⟨by decide, by decide, by decide⟩
        · revert hlo
          generalize a.toNat % 16 = n
          intro hn
          interval_cases n <;> exact ⟨by decide, by decide, by decide⟩
    · exact ih c hc

theorem encodeURIComponent_ne_nil {s : List Char} (h : s ≠ []) :
    encodeURIComponent s ≠ [] := by
  cases s with
  | nil => exact absurd rfl h
  | cons c t =>
    have hct : encodeURIComponent (c :: t) = encCharURI c ++ encodeURIComponent t := by
      simp [encodeURIComponent]
    rw [hct]
    by_cases hu : isUnreservedURI c = true <;> simp [encCharURI, hu]

/-! ## JavaScript string coercion

`` `${value}` `` on a JavaScript value: strings unchanged, arrays joined by `,`
(with `null`/`undefined` elements rendered empty, per `Array.prototype.join`),
objects as `[object Object]`. -/

/-- `true` exactly on JavaScript `null` (the model has no separate
`undefined`; see `indexZero`). -/
def isNullJs : JsValue → Bool
  | .jnull => true
  | _ => false

mutual

/-- Model of JavaScript `ToString` on the `JsValue` fragment. -/
def jsToString : JsValue → List Char
  | .jnull => ['n', 'u', 'l', 'l']
  | .jbool true => ['t', 'r', 'u', 'e']
  | .jbool false => ['f', 'a', 'l', 's', 'e']
  | .jnum n => intToChars n
  | .jstr s => s
  | .jarr vs => jsArrJoin vs
  | .jobj _ => "[object Object]".toList

/-- `Array.prototype.join` with the default `,` separator. -/
def jsArrJoin : List JsValue → List Char
  | [] => []
  | [v] => if isNullJs v then [] else jsToString v
  | v :: w :: t => (if isNullJs v then [] else jsToString v) ++ ',' :: jsArrJoin (w :: t)

end

/-! ## The host cookie jar capability

`document.cookie` is modelled as an association list of name/value records.
Writing a record string parses `name=value;…` and sets/overwrites the entry of
that name; attributes after the first `;` are not interpreted.  Reading yields
the standard `n1=v1; n2=v2` header. -/

abbrev CookieJar := List (List Char × List Char)

/-- Insert-or-overwrite by cookie name. -/
def jarSet : CookieJar → List Char → List Char → CookieJar
  | [], n, v => [(n, v)]
  | (n0, v0) :: t, n, v => if n0 = n then (n0, v) :: t else (n0, v0) :: jarSet t n v

/-- Look a cookie up by name. -/
def jarGet : CookieJar → List Char → Option (List Char)
  | [], _ => none
  | (n0, v0) :: t, n => if n0 = n then some v0 else jarGet t n

/-- Parse a cookie record string `name=value;attrs…` into name and value. -/
def parseRecord (record : List Char) : List Char × List Char :=
  let n := record.takeWhile (fun c => c != '=')
  let rest := (record.drop n.length).drop 1
  (n, rest.takeWhile (fun c => c != ';'))

/-- Committing an assignment to `document.cookie`. -/
def writeCookie (jar : CookieJar) (record : List Char) : CookieJar :=
  jarSet jar (parseRecord record).1 (parseRecord record).2

/-- Reading `document.cookie`. -/
def readCookieHeader : CookieJar → List Char
  | [] => []
  | [(n, v)] => n ++ '=' :: v
  | (n, v) :: e :: t => n ++ '=' :: v ++ ';' :: ' ' :: readCookieHeader (e :: t)

/-! ### The `getCookie` regular expression

`getCookie` extracts the value with
`` cookie.replace(new RegExp(`(?:(?:^|.*;)\s*KEY\s*\=\s*([^;]*).*$)|^.*$`), '$1') ``:
the value of the last record (segment between `;`s) whose name, after leading
whitespace, is exactly the resolved key; the empty string when none matches.
The functions below implement exactly that extraction on the header string
(literal key matching: the escaping `KEY.replace(/[-.+*]/g,'\\$&')` makes the
key match literally for the percent-encoded keys the class produces). -/

/-- Split the header at every `;`. -/
def splitSemi : List Char → List (List Char)
  | [] => [[]]
  | c :: t =>
    if c = ';' then [] :: splitSemi t
    else
      match splitSemi t with
      | h :: r => (c :: h) :: r
      | [] => [[c]]

/-- After the key: optional spaces, `=`, optional spaces, then the value. -/
def afterKey : List Char → Option (List Char)
  | '=' :: rest => some (rest.dropWhile (fun c => c == ' '))
  | _ => none

/-- Consume the key literally, then delegate to `afterKey`. -/
def matchKey : List Char → List Char → Option (List Char)
  | [], rest => afterKey (rest.dropWhile (fun c => c == ' '))
  | _ :: _, [] => none
  | k :: ks, c :: cs => if c = k then matchKey ks cs else none

/-- Try one `;`-segment: leading whitespace, the key, `=`, the value. -/
def segMatch (key seg : List Char) : Option (List Char) :=
  matchKey key (seg.dropWhile (fun c => c == ' '))

/-- The regex replacement: value of the last matching record, else empty. -/
def extractCookie (key header : List Char) : List Char :=
  (((splitSemi header).filterMap (segMatch key)).getLast?).getD []

/-- A well-formed cookie name: nonempty, no `;`/`=`/space. -/
def GoodName (n : List Char) : Prop :=
  n ≠ [] ∧ ∀ c ∈ n, c ≠ ';' ∧ c ≠ '=' ∧ c ≠ ' '

/-- A well-formed stored cookie value: no `;`, no leading space. -/
def GoodValue (v : List Char) : Prop :=
  (∀ c ∈ v, c ≠ ';') ∧ ∀ c t, v = c :: t → c ≠ ' '

/-- Jar well-formedness: every record well-formed, names distinct. -/
def JarWF (jar : CookieJar) : Prop :=
  (∀ e ∈ jar, GoodName e.1 ∧ GoodValue e.2) ∧ (jar.map Prod.fst).Nodup

example : jsonParse (stringifyVal (.jobj [(['i', 'd'], .jnum (-10))]))
    = some (.jobj [(['i', 'd'], .jnum (-10))]) := rfl

example : jsonParse ['[', 'b', 'a', 'd'] = none := rfl

/-! ### Extraction lemmas -/

theorem splitSemi_cons (c : Char) (t : List Char) :
    splitSemi (c :: t)
      = if c = ';' then [] :: splitSemi t
        else
          match splitSemi t with
          | h :: r => (c :: h) :: r
          | [] => [[c]] := by
  rw [splitSemi.eq_def]

theorem splitSemi_ne_nil (s : List Char) : splitSemi s ≠ [] := by
  cases s with
  | nil => simp [splitSemi]
  | cons c t =>
    rw [splitSemi_cons]
    by_cases hc : c = ';'
    · simp [hc]
    · rw [if_neg hc]
      split <;> simp

theorem splitSemi_semi (b : List Char) : splitSemi (';' :: b) = [] :: splitSemi b := by
  rw [splitSemi_cons, if_pos rfl]

theorem splitSemi_append {a b : List Char} (ha : ∀ c ∈ a, c ≠ ';') {h0 : List Char}
    {r : List (List Char)} (hb : splitSemi b = h0 :: r) :
    splitSemi (a ++ b) = (a ++ h0) :: r := by
  induction a with
  | nil => simpa using hb
  | cons c t ih =>
    have hc : c ≠ ';' := (ha c (by simp))
    rw [List.cons_append, splitSemi_cons, if_neg hc,
      ih (fun x hx => ha x (by simp [hx]))]
    rfl

theorem segMatch_space (key seg : List Char) : segMatch key (' ' :: seg) = segMatch key seg := by
  simp [segMatch, List.dropWhile]

theorem dropWhile_space_eq_self {v : List Char} (hv : ∀ c t, v = c :: t → c ≠ ' ') :
    v.dropWhile (fun c => c == ' ') = v := by
  cases v with
  | nil => rfl
  | cons c t =>
    have h1 : c ≠ ' ' := hv c t rfl
    have h2 : (c == ' ') = false := by simp [h1]
    simp [List.dropWhile, h2]

theorem matchKey_self (key v : List Char) :
    matchKey key (key ++ '=' :: v) = some (v.dropWhile (fun c => c == ' ')) := by
  induction key with
  | nil => simp [matchKey, afterKey, List.dropWhile]
  | cons k ks ih => simp [matchKey, ih]

theorem afterKey_not_eq {c : Char} (t : List Char) (hc : c ≠ '=') : afterKey (c :: t) = none := by
  rw [afterKey.eq_def]
  split
  · rename_i heq
    injection heq with h1 _
    exact absurd h1 hc
  · rfl

theorem matchKey_entry_ne (key : List Char) :
    ∀ (n v : List Char), n ≠ key → (∀ c ∈ key, c ≠ '=') →
      (∀ c ∈ n, c ≠ ' ' ∧ c ≠ '=') →
      matchKey key (n ++ '=' :: v) = none := by
  induction key with
  | nil =>
    intro n v hne _ hn
    cases n with
    | nil => exact absurd rfl hne
    | cons c n' =>
      have hc := hn c (by simp)
      rw [List.cons_append, matchKey]
      have hc1 : (c == ' ') = false := by simp [hc.1]
      have hdw : ((c :: (n' ++ '=' :: v)).dropWhile (fun c => c == ' ')) = c :: (n' ++ '=' :: v) := by
        simp [List.dropWhile, hc1]
      rw [hdw, afterKey_not_eq _ hc.2]
  | cons k ks ih =>
    intro n v hne hk hn
    cases n with
    | nil =>
      have hkne : k ≠ '=' := hk k (by simp)
      rw [List.nil_append, matchKey, if_neg (fun h => hkne h.symm)]
    | cons c n' =>
      rw [List.cons_append, matchKey]
      by_cases hck : c = k
      · subst hck
        rw [if_pos rfl]
        have hn'ne : n' ≠ ks := by
          intro h
          exact hne (by rw [h])
        exact ih n' v hn'ne (fun x hx => hk x (by simp [hx])) (fun x hx => hn x (by simp [hx]))
      · rw [if_neg hck]

theorem segMatch_entry (key n v : List Char) (hk : GoodName key)
    (hn : ∀ c ∈ n, c ≠ ';' ∧ c ≠ '=' ∧ c ≠ ' ') (hv : GoodValue v) :
    segMatch key (n ++ '=' :: v) = if n = key then some v else none := by
  have hdw : ((n ++ '=' :: v).dropWhile (fun c => c == ' ')) = n ++ '=' :: v := by
    cases n with
    | nil => simp [List.dropWhile]
    | cons c t =>
      have h1 : (c == ' ') = false := by simp [(hn c (by simp)).2.2]
      simp [List.dropWhile, h1]
  rw [segMatch, hdw]
  by_cases h : n = key
  · subst h
    rw [if_pos rfl, matchKey_self, dropWhile_space_eq_self hv.2]
  · rw [if_neg h,
      matchKey_entry_ne key n v h (fun c hc => (hk.2 c hc).2.1)
        (fun c hc => ⟨(hn c hc).2.2, (hn c hc).2.1⟩)]

theorem filterMap_segs_space (key X : List Char) :
    (splitSemi (' ' :: X)).filterMap (segMatch key)
      = (splitSemi X).filterMap (segMatch key) := by
  obtain ⟨h0, r, hr⟩ : ∃ h0 r, splitSemi X = h0 :: r := by
    cases h : splitSemi X with
    | nil => exact absurd h (splitSemi_ne_nil X)
    | cons h0 r => exact ⟨h0, r, rfl⟩
  rw [splitSemi_cons, if_neg (by decide : ¬ (' ' = ';')), hr]
  simp only [List.filterMap_cons, segMatch_space]

/-- The `;`-segment matcher, applied to the rendered header, computes exactly
the by-name filter of the jar. -/
theorem header_matches (key : List Char) (hk : GoodName key) :
    ∀ jar : CookieJar, (∀ e ∈ jar, GoodName e.1 ∧ GoodValue e.2) →
      (splitSemi (readCookieHeader jar)).filterMap (segMatch key)
        = jar.filterMap (fun e => if e.1 = key then some e.2 else none)
  | [] => by
    intro _
    obtain ⟨k0, ks, hks⟩ : ∃ k0 ks, key = k0 :: ks := by
      cases hkk : key with
      | nil => exact absurd hkk hk.1
      | cons k0 ks => exact ⟨k0, ks, rfl⟩
    have hseg : segMatch key [] = none := by
      rw [segMatch, hks]
      rfl
    simp [readCookieHeader, splitSemi, hseg]
  | (n, v) :: rest => by
    intro hwf
    have hgn := (hwf (n, v) (by simp)).1
    have hgv := (hwf (n, v) (by simp)).2
    have hnosemi : ∀ c ∈ n ++ '=' :: v, c ≠ ';' := by
      intro c hc
      rcases List.mem_append.mp hc with h | h
      · exact (hgn.2 c h).1
      · rcases List.mem_cons.mp h with rfl | h
        · decide
        · exact hgv.1 c h
    have hmatch : segMatch key (n ++ '=' :: v) = if n = key then some v else none :=
      segMatch_entry key n v hk (fun c hc => hgn.2 c hc) hgv
    cases rest with
    | nil =>
      have hsplit : splitSemi (n ++ '=' :: v) = [n ++ '=' :: v] := by
        have hb0 : splitSemi ([] : List Char) = [] :: [] := rfl
        have := splitSemi_append hnosemi hb0
        simpa using this
      show (splitSemi (n ++ '=' :: v)).filterMap (segMatch key) = _
      rw [hsplit]
      simp only [List.filterMap_cons, List.filterMap_nil, hmatch]
    | cons e t =>
      have hb : splitSemi (';' :: ' ' :: readCookieHeader (e :: t))
          = [] :: splitSemi (' ' :: readCookieHeader (e :: t)) := splitSemi_semi _
      have hsplit := splitSemi_append hnosemi hb
      rw [List.append_nil] at hsplit
      have hdr : readCookieHeader ((n, v) :: e :: t)
          = (n ++ '=' :: v) ++ ';' :: ' ' :: readCookieHeader (e :: t) := by
        show n ++ '=' :: v ++ ';' :: ' ' :: readCookieHeader (e :: t) = _
        simp
      rw [hdr, hsplit]
      simp only [List.filterMap_cons, hmatch]
      rw [filterMap_segs_space key (readCookieHeader (e :: t)),
        header_matches key hk (e :: t) (fun x hx => hwf x (by simp [hx]))]
      simp only [List.filterMap_cons]

theorem jar_filterMap_eq_nil (key : List Char) :
    ∀ jar : CookieJar, key ∉ jar.map Prod.fst →
      jar.filterMap (fun e => if e.1 = key then some e.2 else none) = [] := by
  intro jar
  induction jar with
  | nil => intro _; rfl
  | cons e t ih =>
    intro h
    simp only [List.map_cons, List.mem_cons, not_or] at h
    simp only [List.filterMap_cons, if_neg (fun hh : e.1 = key => h.1 hh.symm)]
    exact ih h.2

theorem jar_filterMap_single (key v : List Char) :
    ∀ jar : CookieJar, (jar.map Prod.fst).Nodup → jarGet jar key = some v →
      jar.filterMap (fun e => if e.1 = key then some e.2 else none) = [v] := by
  intro jar
  induction jar with
  | nil => intro _ h; exact absurd h (by simp [jarGet])
  | cons e t ih =>
    intro hnd hget
    obtain ⟨n, w⟩ := e
    rw [jarGet] at hget
    simp only [List.map_cons, List.nodup_cons] at hnd
    by_cases h : n = key
    · rw [if_pos h] at hget
      injection hget with hvw
      simp only [List.filterMap_cons, if_pos h, hvw]
      rw [jar_filterMap_eq_nil key t (by rw [← h]; exact hnd.1)]
    · rw [if_neg h] at hget
      simp only [List.filterMap_cons, if_neg h]
      exact ih hnd.2 hget

/-- On a well-formed jar, the regex extraction returns exactly the stored
value of the key. -/
theorem extractCookie_found {jar : CookieJar} {key v : List Char} (hwf : JarWF jar)
    (hk : GoodName key) (hget : jarGet jar key = some v) :
    extractCookie key (readCookieHeader jar) = v := by
  rw [extractCookie, header_matches key hk jar hwf.1,
    jar_filterMap_single key v jar hwf.2 hget]
  rfl

/-- On a well-formed jar with no record of the key, the extraction is empty. -/
theorem jarGet_eq_none_not_mem {key : List Char} :
    ∀ jar : CookieJar, jarGet jar key = none → key ∉ jar.map Prod.fst := by
  intro jar
  induction jar with
  | nil => intro _; simp
  | cons e t ih =>
    intro h
    obtain ⟨n0, v0⟩ := e
    rw [jarGet] at h
    by_cases hh : n0 = key
    · rw [if_pos hh] at h
      exact absurd h (by simp)
    · rw [if_neg hh] at h
      simp only [List.map_cons, List.mem_cons, not_or]
      exact ⟨fun hkk => hh hkk.symm, ih h⟩

/-- On a well-formed jar with no record of the key, the extraction is empty. -/
theorem extractCookie_absent {jar : CookieJar} {key : List Char} (hwf : JarWF jar)
    (hk : GoodName key) (hget : jarGet jar key = none) :
    extractCookie key (readCookieHeader jar) = [] := by
  rw [extractCookie, header_matches key hk jar hwf.1,
    jar_filterMap_eq_nil key jar (jarGet_eq_none_not_mem jar hget)]
  rfl

/-! ### Jar update lemmas -/

theorem jarGet_jarSet_self : ∀ (jar : CookieJar) (n v : List Char),
    jarGet (jarSet jar n v) n = some v
  | [], n, v => by simp [jarSet, jarGet]
  | (n0, v0) :: t, n, v => by
    by_cases h : n0 = n
    · simp [jarSet, h, jarGet]
    · rw [jarSet, if_neg h, jarGet, if_neg h]
      exact jarGet_jarSet_self t n v

theorem jarGet_jarSet_other : ∀ (jar : CookieJar) (n v m : List Char), m ≠ n →
    jarGet (jarSet jar n v) m = jarGet jar m
  | [], n, v, m, hm => by
    rw [jarSet, jarGet, jarGet, if_neg (fun h => hm h.symm)]
    rfl
  | (n0, v0) :: t, n, v, m, hm => by
    by_cases h : n0 = n
    · rw [jarSet, if_pos h, jarGet, jarGet]
      have : n0 ≠ m := by rw [h]; exact fun hh => hm hh.symm
      rw [if_neg this, if_neg this]
    · rw [jarSet, if_neg h, jarGet, jarGet]
      by_cases h2 : n0 = m
      · rw [if_pos h2, if_pos h2]
      · rw [if_neg h2, if_neg h2]
        exact jarGet_jarSet_other t n v m hm

theorem jarSet_map_fst : ∀ (jar : CookieJar) (n v : List Char),
    (jarSet jar n v).map Prod.fst
      = if n ∈ jar.map Prod.fst then jar.map Prod.fst else jar.map Prod.fst ++ [n]
  | [], n, v => by simp [jarSet]
  | (n0, v0) :: t, n, v => by
    by_cases h : n0 = n
    · simp [jarSet, h]
    · rw [jarSet, if_neg h]
      have hne : (n = n0) = False := eq_false (fun hh => h hh.symm)
      simp only [List.map_cons, jarSet_map_fst t n v, List.mem_cons, hne, false_or]
      by_cases hmem : n ∈ t.map Prod.fst
      · rw [if_pos hmem, if_pos hmem]
      · rw [if_neg hmem, if_neg hmem]
        rfl

theorem jarSet_WF {jar : CookieJar} {n v : List Char} (hwf : JarWF jar)
    (hn : GoodName n) (hv : GoodValue v) : JarWF (jarSet jar n v) := by
  constructor
  · intro e he
    -- membership in the updated jar is membership in the old jar or being the new record
    have : e ∈ jar ∨ e = (n, v) := by
      clear hwf
      induction jar with
      | nil => simpa [jarSet] using he
      | cons e0 t ih =>
        obtain ⟨n0, v0⟩ := e0
        by_cases h : n0 = n
        · rw [jarSet, if_pos h] at he
          rcases List.mem_cons.mp he with rfl | he0
          · right; rw [h]
          · left; exact List.mem_cons_of_mem _ he0
        · rw [jarSet, if_neg h] at he
          rcases List.mem_cons.mp he with rfl | he0
          · left; exact List.mem_cons_self _ _
          · rcases ih he0 with hin | hnew
            · left; exact List.mem_cons_of_mem _ hin
            · right; exact hnew
    rcases this with hin | rfl
    · exact hwf.1 e hin
    · exact ⟨hn, hv⟩
  · rw [jarSet_map_fst]
    by_cases hmem : n ∈ jar.map Prod.fst
    · rw [if_pos hmem]; exact hwf.2
    · rw [if_neg hmem]
      refine List.Nodup.append hwf.2 (List.nodup_singleton n) ?_
      intro a ha hb
      simp only [List.mem_singleton] at hb
      subst hb
      exact hmem ha

/-! ### `parseRecord` on well-formed records -/

theorem takeWhile_append_stop {p : Char → Bool} :
    ∀ (a : List Char), (∀ c ∈ a, p c = true) → ∀ (hd : Char) (b : List Char), p hd = false →
      (a ++ hd :: b).takeWhile p = a
  | [], _, hd, b, hb => by simp [List.takeWhile_cons, hb]
  | c :: t, ha, hd, b, hb => by
    rw [List.cons_append, List.takeWhile_cons, ha c (by simp)]
    rw [takeWhile_append_stop t (fun x hx => ha x (by simp [hx])) hd b hb]
    rfl

theorem parseRecord_eq (n rest : List Char) (hn : ∀ c ∈ n, c ≠ '=') :
    parseRecord (n ++ '=' :: rest) = (n, rest.takeWhile (fun c => c != ';')) := by
  have htw : (n ++ '=' :: rest).takeWhile (fun c => c != '=') = n :=
    takeWhile_append_stop n (fun c hc => by simp [hn c hc]) '=' rest (by simp)
  rw [parseRecord]
  simp only [htw]
  rw [List.drop_left, List.drop_one]
  rfl

/-! ## The `FrontEndCache` class (src/index.ts)

Operations are parameterized by the merged options and the instance's resolved
key; the browser ambient state is threaded explicitly (`HostState`, `now`).
`setItem` also returns its argument in the source; that return value is the
argument unchanged, so the model keeps only the state effect. -/

inductive FrontEndCacheType where
  | localStorage
  | sessionStorage
  | cookie
deriving DecidableEq

inductive FrontEndCacheExpiresUnit where
  | years
  | months
  | days
  | hours
  | minutes
  | seconds
  | milliseconds
deriving DecidableEq

/-- The merged option record held in `this.options` (`FrontEndCacheOptions`
with the constructor's defaults already applied; `expires` and `serialize`
stay optional, `encryKey` is an optional key transform). -/
structure FrontEndCacheOptions where
  domain : List Char
  path : List Char
  expires : Option Int
  expiresUnit : FrontEndCacheExpiresUnit
  secure : Bool
  type : FrontEndCacheType
  serialize : Option Bool
  encryKey : Option (List Char → List Char)

/-- The options argument of the constructor: every field optional. -/
structure FrontEndCacheOptionsInput where
  domain : Option (List Char)
  path : Option (List Char)
  expires : Option Int
  expiresUnit : Option FrontEndCacheExpiresUnit
  secure : Option Bool
  type : Option FrontEndCacheType
  serialize : Option Bool
  encryKey : Option (List Char → List Char)

/-- The constructor's defaults merge (src lines 91–98):
`{ domain: location.host, path: '/', expiresUnit: 'milliseconds',
secure: false, type: 'localStorage', ...options }`. -/
def mergeOptions (host : List Char) (o : FrontEndCacheOptionsInput) : FrontEndCacheOptions where
  domain := o.domain.getD host
  path := o.path.getD ['/']
  expires := o.expires
  expiresUnit := o.expiresUnit.getD .milliseconds
  secure := o.secure.getD false
  type := o.type.getD .localStorage
  serialize := o.serialize
  encryKey := o.encryKey

/-- A Web Storage object (`localStorage` / `sessionStorage`): a string-keyed
string store; we reuse the association-list primitives `jarGet`/`jarSet`. -/
abbrev Storage := List (List Char × List Char)

/-- The ambient browser state touched by the class. -/
structure HostState where
  windowLocalStorage : Storage
  windowSessionStorage : Storage
  documentCookie : CookieJar

/-- `window[this.options.type]` for the two Web Storage kinds (the source
never evaluates it on the cookie path). -/
def readStore (st : HostState) : FrontEndCacheType → Storage
  | .localStorage => st.windowLocalStorage
  | .sessionStorage => st.windowSessionStorage
  | .cookie => []

/-- Write back the store selected by `window[this.options.type]`. -/
def writeStore (st : HostState) : FrontEndCacheType → Storage → HostState
  | .localStorage, s => { st with windowLocalStorage := s }
  | .sessionStorage, s => { st with windowSessionStorage := s }
  | .cookie, _ => st

namespace FrontEndCache

/-- The constructor's key resolution (src lines 100–104):
`this.key = this.options.encryKey?.(key) || key` — `||`, so an empty
transformed key falls back to `key` — and then, when the kind is cookie,
`this.key = encodeURIComponent(key)`.  Note the source encodes the original
`key` argument, not the transformed `this.key`. -/
def resolvedKey (opts : FrontEndCacheOptions) (key : List Char) : List Char :=
  let k0 := match opts.encryKey with
    | some f => if f key = [] then key else f key
    | none => key
  if opts.type = .cookie then encodeURIComponent key else k0

/-- The `expiresTimeStamp` getter (src lines 107–116).  The source computes
`now[`get${fun}`](now[`get${fun}`] + this.options.expires)` — a call of the
date *getter*, whose arguments are ignored and which never mutates `now` — and
then returns `now.getTime()`: whenever `expires` is a number the result is the
unmodified current timestamp. -/
def expiresTimeStamp (opts : FrontEndCacheOptions) (now : Int) : Option Int :=
  match opts.expires with
  | none => none
  | some _ => some now

/-- `serializeValue` (src lines 118–132). -/
def serializeValue (opts : FrontEndCacheOptions) (v : JsValue) : List Char :=
  let s := if opts.serialize = some false then jsToString v else stringifyVal v
  if opts.type = .cookie then encodeURIComponent s else s

/-- The `try`-block body of `deserialization` (src lines 135–143): `none`
models a thrown exception (`decodeURIComponent` `URIError` or `JSON.parse`
`SyntaxError`). -/
def deserializationTry (opts : FrontEndCacheOptions) (value : Option (List Char)) :
    Option JsValue :=
  match (if opts.type = .cookie then decodeURIComponent (value.getD []) else some (value.getD [])) with
  | none => none
  | some v1 => if opts.serialize = some false then some (.jstr v1) else jsonParse v1

/-- `deserialization` (src lines 134–147): the `catch` turns every decoding
failure into `null`. -/
def deserialization (opts : FrontEndCacheOptions) (value : Option (List Char)) : JsValue :=
  (deserializationTry opts value).getD .jnull

/-- Textual rendering of the expiry instant inside the record's attribute
section (`new Date(ts).toUTCString()` in the source).  The modelled jar
capability never interprets attributes, so the exact date format is abstracted
to a decimal rendering. -/
def toUTCStringModel (t : Int) : List Char := intToChars t

/-- `setCookie` (src lines 149–159): build
`key=value;path=…;domain=…;[expires=…;]` and assign it to `document.cookie`
(`if (this.expiresTimeStamp)`: a `0` timestamp is falsy and emits nothing). -/
def setCookie (opts : FrontEndCacheOptions) (key : List Char) (now : Int) (v : JsValue)
    (jar : CookieJar) : CookieJar :=
  let base := key ++ '=' :: (serializeValue opts v ++ ';' ::
    ("path=".toList ++ opts.path ++ [';'] ++ ("domain=".toList ++ opts.domain ++ [';'])))
  let record := match expiresTimeStamp opts now with
    | some ts =>
      if ts ≠ 0 then base ++ ("expires=".toList ++ (toUTCStringModel ts ++ [';'])) else base
    | none => base
  writeCookie jar record

/-- `getCookie` (src lines 161–164): regex extraction then deserialization. -/
def getCookie (opts : FrontEndCacheOptions) (key : List Char) (jar : CookieJar) : JsValue :=
  deserialization opts (some (extractCookie key (readCookieHeader jar)))

/-- `removeCookie` (src lines 166–168): overwrite with an empty value and an
epoch-start expiry attribute. -/
def removeCookie (opts : FrontEndCacheOptions) (key : List Char) (jar : CookieJar) : CookieJar :=
  writeCookie jar
    (key ++ "=; expires=Thu, 01 Jan 1970 00:00:00 GMT;domain=".toList ++ opts.domain
      ++ ";path=".toList ++ opts.path)

/-- The storage envelope `[value, domain, path]`, with
`this.expiresTimeStamp && (_value[3] = this.expiresTimeStamp)` appending the
timestamp only when it is truthy (nonzero). -/
def envelope (opts : FrontEndCacheOptions) (now : Int) (v : JsValue) : JsValue :=
  match expiresTimeStamp opts now with
  | some ts =>
    if ts ≠ 0 then .jarr [v, .jstr opts.domain, .jstr opts.path, .jnum ts]
    else .jarr [v, .jstr opts.domain, .jstr opts.path]
  | none => .jarr [v, .jstr opts.domain, .jstr opts.path]

/-- `setItem` (src lines 170–182). -/
def setItem (opts : FrontEndCacheOptions) (key : List Char) (now : Int) (v : JsValue)
    (st : HostState) : HostState :=
  if opts.type = .cookie then
    { st with documentCookie := setCookie opts key now v st.documentCookie }
  else
    writeStore st opts.type
      (jarSet (readStore st opts.type) key (serializeValue opts (envelope opts now v)))

/-- `value?.[0]` on the deserialized result: JavaScript indexing, `none`
standing for `undefined` (`null` short-circuits `?.`; a string yields its
first character as a one-character string; an object yields its `"0"`
property, later duplicates shadowing earlier ones; numbers and booleans have
no `0` property). -/
def indexZero : JsValue → Option JsValue
  | .jnull => none
  | .jbool _ => none
  | .jnum _ => none
  | .jstr s => s.head?.map (fun c => .jstr [c])
  | .jarr vs => vs.head?
  | .jobj fs => objField0 fs
where
  objField0 : List (List Char × JsValue) → Option JsValue
    | [] => none
    | (k, v) :: t =>
      match objField0 t with
      | some w => some w
      | none => if k = ['0'] then some v else none

/-- `a ?? defaultValue ?? null` where `a` is `none` for `undefined` and the
optional `defaultValue` is `none` when not passed. -/
def nullish2 (a : Option JsValue) (b : Option JsValue) : JsValue :=
  match a with
  | some v => if isNullJs v then b.getD .jnull else v
  | none => b.getD .jnull

/-- `getItem` (src lines 184–194). -/
def getItem (opts : FrontEndCacheOptions) (key : List Char) (st : HostState)
    (defaultValue : Option JsValue) : JsValue :=
  if opts.type = .cookie then
    nullish2 (some (getCookie opts key st.documentCookie)) defaultValue
  else
    nullish2 (indexZero (deserialization opts (jarGet (readStore st opts.type) key)))
      defaultValue

/-- `removeItem` (src lines 196–198): it calls `this.removeCookie()`
unconditionally — for every storage kind, only `document.cookie` is written;
the Web Storage entry is never deleted. -/
def removeItem (opts : FrontEndCacheOptions) (key : List Char) (st : HostState) : HostState :=
  { st with documentCookie := removeCookie opts key st.documentCookie }

end FrontEndCache

/-! ## Supporting lemmas for the claim theorems -/

namespace FrontEndCache

theorem nullish2_some_none (v : JsValue) : nullish2 (some v) none = v := by
  cases v <;> rfl

theorem nullish2_some_null (b : Option JsValue) : nullish2 (some .jnull) b = b.getD .jnull := rfl

theorem readStore_writeStore (st : HostState) (ty : FrontEndCacheType) (s : Storage)
    (h : ty ≠ .cookie) : readStore (writeStore st ty s) ty = s := by
  cases ty with
  | localStorage => rfl
  | sessionStorage => rfl
  | cookie => exact absurd rfl h

/-- The envelope is always an array whose first element is the value. -/
theorem indexZero_envelope (opts : FrontEndCacheOptions) (now : Int) (v : JsValue) :
    indexZero (envelope opts now v) = some v := by
  rw [envelope]
  cases expiresTimeStamp opts now with
  | none => rfl
  | some ts =>
    by_cases h : ts ≠ 0
    · simp only [if_pos h]
      rfl
    · simp only [if_neg h]
      rfl

/-- On a Web Storage kind with default serialization, reading back the raw
entry written by `setItem` deserializes to the envelope itself. -/
theorem web_set_get_envelope (opts : FrontEndCacheOptions) (key : List Char) (st : HostState)
    (now : Int) (v : JsValue) (htype : opts.type ≠ .cookie)
    (hser : opts.serialize ≠ some false) :
    deserialization opts
        (jarGet (readStore (setItem opts key now v st) opts.type) key)
      = envelope opts now v := by
  rw [setItem, if_neg htype, readStore_writeStore _ _ _ htype, jarGet_jarSet_self,
    serializeValue]
  rw [if_neg hser, if_neg htype, deserialization, deserializationTry, if_neg htype]
  simp only [Option.getD_some]
  rw [if_neg hser, jsonParse_stringify]
  rfl

/-- `getItem` after `setItem`, Web Storage kinds, default serialization. -/
theorem web_getItem_setItem (opts : FrontEndCacheOptions) (key : List Char) (st : HostState)
    (now : Int) (v : JsValue) (d : Option JsValue) (htype : opts.type ≠ .cookie)
    (hser : opts.serialize ≠ some false) :
    getItem opts key (setItem opts key now v st) d = nullish2 (some v) d := by
  rw [getItem, if_neg htype, web_set_get_envelope opts key st now v htype hser,
    indexZero_envelope]

theorem goodName_encode {s : List Char} (h : s ≠ []) : GoodName (encodeURIComponent s) :=
  ⟨encodeURIComponent_ne_nil h, fun c hc => encodeURIComponent_safe s c hc⟩

theorem goodValue_encode (s : List Char) : GoodValue (encodeURIComponent s) :=
  ⟨fun c hc => (encodeURIComponent_safe s c hc).1,
    fun c t hct => (encodeURIComponent_safe s c (by rw [hct]; simp)).2.2⟩

/-- With cookie kind, `serializeValue` always percent-encodes. -/
theorem serializeValue_cookie (opts : FrontEndCacheOptions) (v : JsValue)
    (htype : opts.type = .cookie) :
    serializeValue opts v
      = encodeURIComponent
          (if opts.serialize = some false then jsToString v else stringifyVal v) := by
  rw [serializeValue, if_pos htype]

/-- `setCookie` with no expiry configured updates the jar at exactly the
resolved key, storing the serialized value. -/
theorem setCookie_jar (opts : FrontEndCacheOptions) (key : List Char) (now : Int) (v : JsValue)
    (jar : CookieJar) (htype : opts.type = .cookie) (hexp : opts.expires = none)
    (hkeyE : ∀ c ∈ key, c ≠ '=') :
    setCookie opts key now v jar = jarSet jar key (serializeValue opts v) := by
  have hval : ∀ c ∈ serializeValue opts v, c ≠ ';' := by
    rw [serializeValue_cookie opts v htype]
    intro c hc
    exact (encodeURIComponent_safe _ c hc).1
  have hts : expiresTimeStamp opts now = none := by rw [expiresTimeStamp, hexp]
  simp only [setCookie, hts]
  rw [writeCookie, parseRecord_eq key _ hkeyE]
  rw [takeWhile_append_stop (serializeValue opts v) (fun c hc => by simp [hval c hc])
    ';' _ (by simp)]

/-- `getItem` after `setItem`, cookie kind, default serialization, no expiry,
on a well-formed jar, for ASCII-rendering values. -/
theorem cookie_getItem_setItem (opts : FrontEndCacheOptions) (key : List Char) (st : HostState)
    (now : Int) (v : JsValue) (d : Option JsValue) (htype : opts.type = .cookie)
    (hser : opts.serialize ≠ some false) (hexp : opts.expires = none)
    (hkey : ∃ s, s ≠ [] ∧ key = encodeURIComponent s) (hwf : JarWF st.documentCookie)
    (hascii : ∀ c ∈ stringifyVal v, c.toNat < 128) :
    getItem opts key (setItem opts key now v st) d = nullish2 (some v) d := by
  obtain ⟨s, hs, rfl⟩ := hkey
  have hgn : GoodName (encodeURIComponent s) := goodName_encode hs
  have henc : serializeValue opts v = encodeURIComponent (stringifyVal v) := by
    rw [serializeValue_cookie opts v htype, if_neg hser]
  have hjar : (setItem opts (encodeURIComponent s) now v st).documentCookie
      = jarSet st.documentCookie (encodeURIComponent s) (serializeValue opts v) := by
    rw [setItem, if_pos htype]
    exact setCookie_jar opts _ now v _ htype hexp (fun c hc => (hgn.2 c hc).2.1)
  have hwf2 : JarWF (jarSet st.documentCookie (encodeURIComponent s) (serializeValue opts v)) := by
    refine jarSet_WF hwf hgn ?_
    rw [henc]
    exact goodValue_encode _
  rw [getItem, if_pos htype, getCookie, hjar,
    extractCookie_found hwf2 hgn (jarGet_jarSet_self _ _ _), henc,
    deserialization, deserializationTry, if_pos htype]
  simp only [Option.getD_some]
  rw [decodeURIComponent_encode _ hascii]
  show nullish2
      (some ((if opts.serialize = some false then some (JsValue.jstr (stringifyVal v))
        else jsonParse (stringifyVal v)).getD JsValue.jnull)) d = _
  rw [if_neg hser, jsonParse_stringify]
  rfl

/-- For cookie kind the resolved key is the percent-encoding of the original
(untransformed) key. -/
theorem resolvedKey_cookie (opts : FrontEndCacheOptions) (key : List Char)
    (htype : opts.type = .cookie) : resolvedKey opts key = encodeURIComponent key := by
  rw [resolvedKey, if_pos htype]

end FrontEndCache

/-! ## Concrete configurations used by the claim theorems

All are produced by the constructor's defaults merge on host `"h"`. -/

def optsLocalDefault : FrontEndCacheOptions :=
  mergeOptions ['h'] ⟨none, none, none, none, none, none, none, none⟩

def optsLocalNoSerialize : FrontEndCacheOptions :=
  mergeOptions ['h'] ⟨none, none, none, none, none, none, some false, none⟩

def optsCookieDefault : FrontEndCacheOptions :=
  mergeOptions ['h'] ⟨none, none, none, none, none, some .cookie, none, none⟩

def optsCookieNoSerialize : FrontEndCacheOptions :=
  mergeOptions ['h'] ⟨none, none, none, none, none, some .cookie, some false, none⟩

def optsLocalExpires : FrontEndCacheOptions :=
  mergeOptions ['h'] ⟨none, none, some 1000, none, none, none, none, none⟩

def optsCookieTransform : FrontEndCacheOptions :=
  mergeOptions ['h'] ⟨none, none, none, none, none, some .cookie, none, some (fun k => k ++ ['X'])⟩

def emptyHost : HostState := ⟨[], [], []⟩

namespace FrontEndCache

/-- A well-formed empty cookie jar. -/
theorem jarWF_nil : JarWF [] :=
  ⟨fun e he => absurd he (List.not_mem_nil e), by simp⟩

/-- The raw string the selected storage kind hands to `deserialization` on a
read: the regex extraction for cookies, the Web Storage lookup otherwise. -/
def rawRead (opts : FrontEndCacheOptions) (key : List Char) (st : HostState) :
    Option (List Char) :=
  if opts.type = .cookie then
    some (extractCookie key (readCookieHeader st.documentCookie))
  else jarGet (readStore st opts.type) key

/-- No record of `key` exists in the medium the configured kind reads. -/
def keyAbsent (opts : FrontEndCacheOptions) (key : List Char) (st : HostState) : Prop :=
  if opts.type = .cookie then
    JarWF st.documentCookie ∧ GoodName key ∧ jarGet st.documentCookie key = none
  else jarGet (readStore st opts.type) key = none

/-- `setItem` on the cookie kind (no expiry) updates the jar at exactly the
instance key. -/
theorem setItem_cookie_jar (opts : FrontEndCacheOptions) (key : List Char) (now : Int)
    (v : JsValue) (st : HostState) (htype : opts.type = .cookie) (hexp : opts.expires = none)
    (hkeyE : ∀ c ∈ key, c ≠ '=') :
    (setItem opts key now v st).documentCookie
      = jarSet st.documentCookie key (serializeValue opts v) := by
  rw [setItem, if_pos htype]
  exact setCookie_jar opts key now v st.documentCookie htype hexp hkeyE

end FrontEndCache

/-! ## The claim theorems -/

open FrontEndCache

/-- C1: the claim states that for Web Storage kinds `removeItem()` invokes the
storage delete operation, so a subsequent `getItem()` never returns the
previously-set value.  The source's `removeItem` (src lines 196–198) only ever
calls `removeCookie`; with the `localStorage` kind, after `setItem 7` then
`removeItem`, `getItem` still returns `7` — the entry is never deleted. -/
theorem C1_removeItem_leaves_web_storage :
    FrontEndCache.getItem optsLocalDefault ['k']
        (FrontEndCache.removeItem optsLocalDefault ['k']
          (FrontEndCache.setItem optsLocalDefault ['k'] 0 (.jnum 7) emptyHost)) none
      = .jnum 7
    ∧ JsValue.jnum 7 ≠ .jnull :=
  ⟨rfl, fun h => JsValue.noConfusion h⟩

/-- C2: for every storage kind, with default serialization and no expiry
configured, `getItem()` immediately after `setItem(v)` returns a value equal
to `v` (for the cookie kind: on a well-formed jar, for values whose rendering
is ASCII, with a nonempty key). -/
theorem C2_set_get_roundtrip (opts : FrontEndCacheOptions) (key : List Char) (st : HostState)
    (now : Int) (v : JsValue)
    (hser : opts.serialize ≠ some false) (hexp : opts.expires = none)
    (hcookie : opts.type = .cookie →
      key ≠ [] ∧ JarWF st.documentCookie ∧ ∀ c ∈ stringifyVal v, c.toNat < 128) :
    FrontEndCache.getItem opts (FrontEndCache.resolvedKey opts key)
      (FrontEndCache.setItem opts (FrontEndCache.resolvedKey opts key) now v st) none = v := by
  by_cases htype : opts.type = .cookie
  · obtain ⟨hk, hwf, hascii⟩ := hcookie htype
    rw [resolvedKey_cookie opts key htype,
      cookie_getItem_setItem opts _ st now v none htype hser hexp ⟨key, hk, rfl⟩ hwf hascii,
      nullish2_some_none]
  · rw [web_getItem_setItem opts _ st now v none htype hser, nullish2_some_none]

theorem C2_set_get_roundtrip_witness :
    FrontEndCache.getItem optsLocalDefault (FrontEndCache.resolvedKey optsLocalDefault ['P'])
      (FrontEndCache.setItem optsLocalDefault (FrontEndCache.resolvedKey optsLocalDefault ['P'])
        0 (.jobj [(['i', 'd'], .jnum 1)]) emptyHost) none
      = .jobj [(['i', 'd'], .jnum 1)] :=
  C2_set_get_roundtrip optsLocalDefault ['P'] emptyHost 0 (.jobj [(['i', 'd'], .jnum 1)])
    (by decide) rfl (fun h => absurd h (by decide))

/-- C3 counterexample: with the cookie kind and `serialize: false`, a key that
was never written does not yield `null` (nor the supplied default): the regex
extraction yields the empty string, which `serialize: false` deserialization
returns as-is, and `"" ?? default ?? null` keeps `""` because the empty string
is not nullish. -/
theorem C3_counterexample :
    FrontEndCache.getItem optsCookieNoSerialize
        (FrontEndCache.resolvedKey optsCookieNoSerialize ['k']) emptyHost none = .jstr []
    ∧ FrontEndCache.getItem optsCookieNoSerialize
        (FrontEndCache.resolvedKey optsCookieNoSerialize ['k']) emptyHost (some (.jnum 5))
        = .jstr []
    ∧ JsValue.jstr [] ≠ .jnull ∧ JsValue.jstr [] ≠ .jnum 5 :=
  ⟨rfl, rfl, fun h => JsValue.noConfusion h, fun h => JsValue.noConfusion h⟩

/-- C3 (amended): for every storage kind, a key never written yields `null`
without a default and the supplied default otherwise — except the cookie kind
with `serialize: false`, where the empty extraction is returned as the empty
string (see `C3_counterexample`). -/
theorem C3_neverWritten_amended (opts : FrontEndCacheOptions) (key : List Char) (st : HostState)
    (d : JsValue) (habs : keyAbsent opts key st)
    (hcs : opts.type = .cookie → opts.serialize ≠ some false) :
    FrontEndCache.getItem opts key st none = .jnull
    ∧ FrontEndCache.getItem opts key st (some d) = d := by
  by_cases htype : opts.type = .cookie
  · rw [keyAbsent, if_pos htype] at habs
    obtain ⟨hwf, hgn, hnone⟩ := habs
    have hser := hcs htype
    have hget : ∀ b, FrontEndCache.getItem opts key st b = b.getD .jnull := by
      intro b
      rw [getItem, if_pos htype, getCookie, extractCookie_absent hwf hgn hnone,
        deserialization, deserializationTry, if_pos htype]
      show nullish2 (some ((if opts.serialize = some false then some (.jstr [])
        else jsonParse []).getD .jnull)) b = b.getD .jnull
      rw [if_neg hser]
      rfl
    exact ⟨hget none, hget (some d)⟩
  · rw [keyAbsent, if_neg htype] at habs
    have hget : ∀ b, FrontEndCache.getItem opts key st b = b.getD .jnull := by
      intro b
      rw [getItem, if_neg htype, habs, deserialization, deserializationTry, if_neg htype]
      show nullish2 (indexZero ((if opts.serialize = some false then some (.jstr [])
        else jsonParse []).getD .jnull)) b = b.getD .jnull
      by_cases hs2 : opts.serialize = some false
      · rw [if_pos hs2]
        rfl
      · rw [if_neg hs2]
        rfl
    exact ⟨hget none, hget (some d)⟩

theorem C3_neverWritten_amended_witness :
    FrontEndCache.getItem optsLocalDefault ['q'] emptyHost none = .jnull
    ∧ FrontEndCache.getItem optsLocalDefault ['q'] emptyHost (some (.jnum 5)) = .jnum 5 :=
  C3_neverWritten_amended optsLocalDefault ['q'] emptyHost (.jnum 5)
    (by rw [FrontEndCache.keyAbsent, if_neg (by decide)]; rfl)
    (fun h => absurd h (by decide))

/-- C4: the claim states that with `expires` configured, the derived expiry
timestamp is the current date-time advanced by `expires` units.  The source's
getter (src line 114) calls the date *getter* as if it were a setter — a
no-op — so with `expires: 1000` (milliseconds) at current time `5000`, the
derived timestamp is `5000` itself, not the claimed `5000 + 1000`. -/
theorem C4_expiresTimeStamp_noop :
    FrontEndCache.expiresTimeStamp optsLocalExpires 5000 = some 5000
    ∧ (5000 : Int) + 1000 ≠ 5000 :=
  ⟨rfl, by decide⟩

/-- C5 counterexample: a stored Web Storage envelope whose path component is
`"/admin"` (the configured current path being `"/"`, which does not start with
`"/admin"`) and whose expiry timestamp is `1` (one millisecond past the epoch,
hence past for any later instant) is still returned by `getItem` — the source
performs no path or expiry validation (`value?.[0] ?? defaultValue ?? null`,
src line 193), and indeed `getItem` reads neither the current path nor the
clock. -/
theorem C5_counterexample :
    FrontEndCache.getItem optsLocalDefault ['k']
        ⟨[(['k'], stringifyVal
            (.jarr [.jnum 42, .jstr ['h'], .jstr "/admin".toList, .jnum 1]))], [], []⟩
        none
      = .jnum 42
    ∧ JsValue.jnum 42 ≠ .jnull :=
  ⟨rfl, fun h => JsValue.noConfusion h⟩

/-- C5 (amended): for Web Storage kinds with default serialization, `getItem`
returns the value component of every syntactically valid stored envelope
regardless of its stored path or expiry timestamp (subject only to the nullish
fallback); no scope or expiry validation happens on read. -/
theorem C5_no_validation_amended (opts : FrontEndCacheOptions) (key : List Char)
    (st : HostState) (v : JsValue) (dm p : List Char) (ts : Int) (d : Option JsValue)
    (htype : opts.type ≠ .cookie) (hser : opts.serialize ≠ some false)
    (hstored : jarGet (readStore st opts.type) key
      = some (stringifyVal (.jarr [v, .jstr dm, .jstr p, .jnum ts]))) :
    FrontEndCache.getItem opts key st d = FrontEndCache.nullish2 (some v) d := by
  rw [getItem, if_neg htype, hstored, deserialization, deserializationTry, if_neg htype]
  show nullish2 (indexZero ((if opts.serialize = some false
      then some (.jstr (stringifyVal (.jarr [v, .jstr dm, .jstr p, .jnum ts])))
      else jsonParse (stringifyVal (.jarr [v, .jstr dm, .jstr p, .jnum ts]))).getD .jnull)) d
    = nullish2 (some v) d
  rw [if_neg hser, jsonParse_stringify]
  rfl

theorem C5_no_validation_amended_witness :
    FrontEndCache.getItem optsLocalDefault ['k']
        ⟨[(['k'], stringifyVal
            (.jarr [.jnum 7, .jstr ['h'], .jstr "/x".toList, .jnum 1]))], [], []⟩
        (some (.jnum 0))
      = .jnum 7 :=
  C5_no_validation_amended optsLocalDefault ['k']
    ⟨[(['k'], stringifyVal (.jarr [.jnum 7, .jstr ['h'], .jstr "/x".toList, .jnum 1]))], [], []⟩
    (.jnum 7) ['h'] "/x".toList 1 (some (.jnum 0)) (by decide) (by decide) rfl

/-- C6: every decoding failure in `deserialization` — for any raw input the
configured kind hands it (malformed JSON, malformed percent-encoding, or the
absent/empty value) — is caught by the `try`/`catch` (src lines 134–147) and
surfaces to the `getItem` caller only as the absent result (default, else
`null`), exactly as for a key not found; no exception escapes (the model's
`deserialization` is total, with `deserializationTry = none` standing for the
thrown-and-caught cases). -/
theorem C6_decode_failure_is_absent (opts : FrontEndCacheOptions) (key : List Char)
    (st : HostState) (d : Option JsValue)
    (hfail : FrontEndCache.deserializationTry opts (FrontEndCache.rawRead opts key st) = none) :
    FrontEndCache.getItem opts key st d = FrontEndCache.nullish2 none d := by
  by_cases htype : opts.type = .cookie
  · rw [rawRead, if_pos htype] at hfail
    rw [getItem, if_pos htype, getCookie, deserialization, hfail]
    rfl
  · rw [rawRead, if_neg htype] at hfail
    rw [getItem, if_neg htype, deserialization, hfail]
    rfl

theorem C6_decode_failure_is_absent_witness :
    FrontEndCache.getItem optsLocalDefault ['k']
        ⟨[(['k'], ['[', 'b', 'a', 'd'])], [], []⟩ (some (.jnum 3))
      = .jnum 3 :=
  C6_decode_failure_is_absent optsLocalDefault ['k']
    ⟨[(['k'], ['[', 'b', 'a', 'd'])], [], []⟩ (some (.jnum 3)) rfl

/-- C7: the claim states that with `serialize: false` and no expiry,
`setItem("abc")` then `getItem()` yields `"abc"` for every storage kind.  For
Web Storage kinds the source coerces the whole envelope array to a string
(`` `${value}` `` in `serializeValue`, src line 121), storing
`"abc,h,/"`, and `getItem`'s `value?.[0]` (src line 193) then indexes that
string, returning only its first character `"a"`.  (The cookie kind, which the
option was documented for, does round-trip `"abc"`.) -/
theorem C7_serialize_false_web_first_char :
    FrontEndCache.getItem optsLocalNoSerialize ['k']
        (FrontEndCache.setItem optsLocalNoSerialize ['k'] 0 (.jstr ['a', 'b', 'c']) emptyHost)
        none
      = .jstr ['a']
    ∧ JsValue.jstr ['a'] ≠ .jstr ['a', 'b', 'c']
    ∧ FrontEndCache.getItem optsCookieNoSerialize
        (FrontEndCache.resolvedKey optsCookieNoSerialize ['k'])
        (FrontEndCache.setItem optsCookieNoSerialize
          (FrontEndCache.resolvedKey optsCookieNoSerialize ['k']) 0
          (.jstr ['a', 'b', 'c']) emptyHost) none
      = .jstr ['a', 'b', 'c'] :=
  ⟨rfl,
    fun h => by
      injection h with h1
      injection h1 with _ h2
      exact List.noConfusion h2,
    rfl⟩

/-- C8: for the cookie kind (default serialization, no expiry configured), a
value whose serialized form contains cookie-delimiter characters is
percent-encoded before being placed in the record, so `setItem` then `getItem`
recovers the value exactly and no other cookie's record is corrupted (every
other name still maps to its old value). -/
theorem C8_cookie_roundtrip (opts : FrontEndCacheOptions) (key : List Char) (st : HostState)
    (now : Int) (v : JsValue)
    (htype : opts.type = .cookie) (hser : opts.serialize ≠ some false)
    (hexp : opts.expires = none) (hkey : key ≠ []) (hwf : JarWF st.documentCookie)
    (hascii : ∀ c ∈ stringifyVal v, c.toNat < 128) :
    FrontEndCache.getItem opts (FrontEndCache.resolvedKey opts key)
        (FrontEndCache.setItem opts (FrontEndCache.resolvedKey opts key) now v st) none = v
    ∧ ∀ n, n ≠ FrontEndCache.resolvedKey opts key →
        jarGet (FrontEndCache.setItem opts (FrontEndCache.resolvedKey opts key) now v
            st).documentCookie n
          = jarGet st.documentCookie n := by
  constructor
  · rw [resolvedKey_cookie opts key htype,
      cookie_getItem_setItem opts _ st now v none htype hser hexp ⟨key, hkey, rfl⟩ hwf hascii,
      nullish2_some_none]
  · intro n hn
    rw [resolvedKey_cookie opts key htype] at hn ⊢
    rw [setItem_cookie_jar opts _ now v st htype hexp
        (fun c hc => (encodeURIComponent_safe key c hc).2.1),
      jarGet_jarSet_other _ _ _ _ hn]

theorem C8_cookie_roundtrip_witness :
    FrontEndCache.getItem optsCookieDefault (FrontEndCache.resolvedKey optsCookieDefault ['U'])
        (FrontEndCache.setItem optsCookieDefault
          (FrontEndCache.resolvedKey optsCookieDefault ['U']) 0
          (.jstr "a;b=c".toList) emptyHost) none
      = .jstr "a;b=c".toList :=
  (C8_cookie_roundtrip optsCookieDefault ['U'] emptyHost 0 (.jstr "a;b=c".toList)
    rfl (by decide) rfl (by decide) jarWF_nil (by decide)).1

/-- C9: the claim states the resolved key is `keyTransform(key)` and, for the
cookie kind, its percent-encoding (`encodeURIComponent(keyTransform(key))`).
The source (src lines 100–104) overwrites `this.key` with
`encodeURIComponent(key)` — the *original* key — whenever the kind is cookie:
with transform `k ↦ k ++ "X"`, the instance key is `"ab"`, not the claimed
`encodeURIComponent("abX") = "abX"`.  (The source's own doc comment for
`encryKey`, src line 68, says the final — transformed — key is what gets
percent-encoded.) -/
theorem C9_cookie_key_not_transformed :
    FrontEndCache.resolvedKey optsCookieTransform ['a', 'b'] = ['a', 'b']
    ∧ encodeURIComponent (['a', 'b'] ++ ['X']) = ['a', 'b', 'X']
    ∧ (['a', 'b'] : List Char) ≠ ['a', 'b', 'X'] :=
  ⟨rfl, rfl, by decide⟩

/-- C10: for Web Storage kinds with default serialization, a stored `null` is
indistinguishable from absence at the public interface: after
`setItem(null)`, `getItem()` returns `null` and `getItem(d)` returns `d`,
because the envelope's value component is combined with the default by the
nullish chain `value?.[0] ?? defaultValue ?? null` (src line 193). -/
theorem C10_stored_null_is_absent (opts : FrontEndCacheOptions) (key : List Char)
    (st : HostState) (now : Int) (d : JsValue)
    (htype : opts.type ≠ .cookie) (hser : opts.serialize ≠ some false) :
    FrontEndCache.getItem opts key (FrontEndCache.setItem opts key now .jnull st) none = .jnull
    ∧ FrontEndCache.getItem opts key (FrontEndCache.setItem opts key now .jnull st) (some d)
        = d := by
  constructor
  · rw [web_getItem_setItem opts key st now .jnull none htype hser]
    rfl
  · rw [web_getItem_setItem opts key st now .jnull (some d) htype hser]
    rfl

theorem C10_stored_null_is_absent_witness :
    FrontEndCache.getItem optsLocalDefault ['k']
        (FrontEndCache.setItem optsLocalDefault ['k'] 0 .jnull emptyHost) (some (.jnum 9))
      = .jnum 9 :=
  (C10_stored_null_is_absent optsLocalDefault ['k'] emptyHost 0 (.jnum 9)
    (by decide) (by decide)).2
